import Mathlib

/-!
# Verification of the gdp_vol numerical pipeline

The repository's numerical core (the `DataTransformer`, `Volatility` and
regression modules) is described by its specification and exercised by the
notebooks, but the Python module sources themselves are not part of the
source tree made available here; only their callers and documentation are.
Accordingly, every definition below that embeds one of those operations is
modelled from the specification's words, and each doc comment says so.

Conventions of the embedding:
* a time-series column is a `List (Option ℚ)`; `none` is the missing marker
  (NaN in the original pandas frames);
* a table is a time index together with an ordered association list of named
  columns; transformations append derived columns at the end;
* fallible operations return `Except GdpError`;
* quantities that are irrational in general (standard deviations, logs) are
  expressed over `ℝ`, with the rational core kept exact so that concrete
  instances evaluate by `decide`/`rfl`;
* the Baxter–King moving-average weights involve `sin` and `π`, so the
  weight vector is a parameter of the Baxter–King model; none of the
  properties below depends on the weight values.
-/

namespace GdpVol

/-- Modelled from the spec: the error kinds of §7 (`MissingColumn`,
`DomainError`, `InsufficientData`, `DivideByZero`); the loader-level
`MalformedSource` belongs to an external collaborator and is omitted. -/
inductive GdpError where
  | missingColumn
  | domainError
  | insufficientData
  | divideByZero
deriving DecidableEq

/-- The non-missing values of a column, in order. -/
def vals (col : List (Option ℚ)) : List ℚ :=
  col.filterMap id

/-- Arithmetic mean of a list of rationals (`0` on the empty list, since
`x / 0 = 0` in `ℚ`). -/
def mean (xs : List ℚ) : ℚ :=
  xs.sum / xs.length

/-- Modelled from the spec: population variance
`mean ((x - mean x)^2)` of a list of values. -/
def popVar (xs : List ℚ) : ℚ :=
  mean (xs.map (fun x => (x - mean xs) ^ 2))

/-- Modelled from the spec: `standard_deviation(column)` of the missing
`Volatility` metrics module: the population standard deviation
`√(mean((x − mean x)²))` over the non-missing values of the column, failing
with `InsufficientData` when fewer than 2 non-missing values remain. -/
noncomputable def standard_deviation (col : List (Option ℚ)) : Except GdpError ℝ :=
  if (vals col).length < 2 then .error .insufficientData
  else .ok (Real.sqrt (popVar (vals col)))

/-- Modelled from the spec: `coefficient_of_variation(column, reference_col)`
of the missing `Volatility` metrics module: `σ(column) / mean(reference_col
or column)`, failing with `DivideByZero` exactly when the denominator mean is
zero.  The spec does not fix the order of the two failure checks; the
zero-mean check is performed first here. -/
noncomputable def coefficient_of_variation (col : List (Option ℚ))
    (ref : Option (List (Option ℚ))) : Except GdpError ℝ :=
  if mean (vals (ref.getD col)) = 0 then .error .divideByZero
  else
    match standard_deviation col with
    | .error e => .error e
    | .ok s => .ok (s / (mean (vals (ref.getD col)) : ℝ))

/-! ## Ordinary least squares core

Raw moments of a list of `(x, y)` pairs, and the closed-form simple-OLS
solution built from them.  These implement “fits ordinary least squares
`y = α + β·x + ε`” of the spec's regression and detrending operations. -/

/-- Number of observations, as a rational. -/
def sN (ps : List (ℚ × ℚ)) : ℚ := ps.length

/-- Raw moment `Σ x`. -/
def sX (ps : List (ℚ × ℚ)) : ℚ := (ps.map Prod.fst).sum

/-- Raw moment `Σ y`. -/
def sY (ps : List (ℚ × ℚ)) : ℚ := (ps.map Prod.snd).sum

/-- Raw moment `Σ x²`. -/
def sXX (ps : List (ℚ × ℚ)) : ℚ := (ps.map (fun p => p.1 ^ 2)).sum

/-- Raw moment `Σ x·y`. -/
def sXY (ps : List (ℚ × ℚ)) : ℚ := (ps.map (fun p => p.1 * p.2)).sum

/-- Raw moment `Σ y²`. -/
def sYY (ps : List (ℚ × ℚ)) : ℚ := (ps.map (fun p => p.2 ^ 2)).sum

/-- The OLS determinant `n·Σx² − (Σx)²` (n² times the x-variance). -/
def olsD (ps : List (ℚ × ℚ)) : ℚ := sN ps * sXX ps - sX ps ^ 2

/-- Modelled from the spec: the OLS slope `β = (n·Σxy − Σx·Σy) / (n·Σx² − (Σx)²)`
of the regression `y = α + β·x + ε`. -/
def olsBeta (ps : List (ℚ × ℚ)) : ℚ := (sN ps * sXY ps - sX ps * sY ps) / olsD ps

/-- Modelled from the spec: the OLS intercept `α = ȳ − β·x̄`. -/
def olsAlpha (ps : List (ℚ × ℚ)) : ℚ := (sY ps - olsBeta ps * sX ps) / sN ps

/-- Residual sum of squares of the affine fit `y = a + b·x` on a pair list. -/
def rss (ps : List (ℚ × ℚ)) (a b : ℚ) : ℚ :=
  (ps.map (fun p => (p.2 - (a + b * p.1)) ^ 2)).sum

/-- Centered x-moment `Σ (x − x̄)²`, as `olsD / n`. -/
def cSxx (ps : List (ℚ × ℚ)) : ℚ := olsD ps / sN ps

/-- Modelled from the spec: the structured regression result (coefficient,
intercept, squared standard error, number of observations).  The derived
inferential statistics (standard error, t-statistic, p-value, confidence
interval) are functions of this core, below. -/
structure RegResult where
  nobs : ℕ
  beta : ℚ
  alpha : ℚ
  seSq : ℚ
deriving DecidableEq

/-- The standard error of the slope, `√(seSq)`. -/
noncomputable def RegResult.se (r : RegResult) : ℝ :=
  Real.sqrt (r.seSq : ℝ)

/-- The t-statistic `β / SE`. -/
noncomputable def RegResult.tstat (r : RegResult) : ℝ :=
  (r.beta : ℝ) / r.se

/-- Modelled from the spec: the two-sided p-value `2·S_{n−2}(|t|)`, where
`S` is the upper-tail function of the t-distribution with `n − 2` degrees of
freedom.  `S` is transcendental, so it is a parameter `tsf` here; the spec's
own boundary case (zero standard error from a perfect fit) is specified to
give a p-value of zero, which is the first branch. -/
noncomputable def RegResult.pvalue (tsf : ℕ → ℝ → ℝ) (r : RegResult) : ℝ :=
  if r.seSq = 0 then 0 else 2 * tsf (r.nobs - 2) |r.tstat|

/-- Modelled from the spec: the confidence interval `β ± c·SE`, where `c` is
the critical value of the chosen convention (`1.96`, or the t-quantile with
`n − 2` degrees of freedom); `c` is a parameter. -/
noncomputable def RegResult.confint (tc : ℝ) (r : RegResult) : ℝ × ℝ :=
  ((r.beta : ℝ) - tc * r.se, (r.beta : ℝ) + tc * r.se)

/-! ## Tables -/

/-- Modelled from the spec: the column-oriented time-series table — a time
index and named value columns, entries optional (missing markers in place). -/
structure Table (V : Type) where
  index : List ℚ
  cols : List (String × List (Option V))

/-- Look a column up by name (first match). -/
def Table.getCol {V : Type} (t : Table V) (name : String) : Option (List (Option V)) :=
  (t.cols.find? (fun c => decide (c.1 = name))).map (fun c => c.2)

/-- Append a derived column at the end of the table. -/
def Table.addCol {V : Type} (t : Table V) (name : String) (c : List (Option V)) : Table V :=
  ⟨t.index, t.cols ++ [(name, c)]⟩

/-- The paired rows of two columns: rows where neither value is missing,
in order; rows with a missing value on either side are dropped. -/
def pairs (icol dcol : List (Option ℚ)) : List (ℚ × ℚ) :=
  (List.zip icol dcol).filterMap
    (fun pq => match pq with
      | (some x, some y) => some (x, y)
      | _ => none)

/-- Modelled from the spec: `run_regression(table, dependent, independent)`
of the missing regression module: fit OLS `dependent = α + β·independent + ε`
over the paired non-missing rows, failing with `InsufficientData` when fewer
than 3 valid paired observations remain and with `MissingColumn` when either
column is absent.  `seSq` is the usual OLS slope variance
`RSS / ((n−2)·Σ(x−x̄)²)`. -/
def run_regression (t : Table ℚ) (dependent independent : String) :
    Except GdpError RegResult :=
  match t.getCol dependent, t.getCol independent with
  | some dcol, some icol =>
      let ps := pairs icol dcol
      if ps.length < 3 then .error .insufficientData
      else .ok ⟨ps.length, olsBeta ps, olsAlpha ps,
        rss ps (olsAlpha ps) (olsBeta ps) / (((ps.length : ℚ) - 2) * cSxx ps)⟩
  | _, _ => .error .missingColumn

/-! ## Hodrick–Prescott filter -/

/-- The second-difference matrix `D` of the HP penalty: `D τ` lists the
curvatures `τ_{t+2} − 2τ_{t+1} + τ_t`. -/
def hpD (n : ℕ) : Matrix (Fin (n - 2)) (Fin n) ℚ := fun i j =>
  if j.val = i.val then 1
  else if j.val = i.val + 1 then -2
  else if j.val = i.val + 2 then 1
  else 0

/-- The normal-equation matrix `I + λ·Dᵀ·D` of the HP objective
`‖y − τ‖² + λ·‖D τ‖²`. -/
def hpA (n : ℕ) (lam : ℚ) : Matrix (Fin n) (Fin n) ℚ :=
  1 + lam • (Matrix.transpose (hpD n) * hpD n)

/-- Inverse of a rational matrix through the adjugate (the zero matrix when
the determinant vanishes, since `(0 : ℚ)⁻¹ = 0`). -/
def qInv {n : ℕ} (A : Matrix (Fin n) (Fin n) ℚ) : Matrix (Fin n) (Fin n) ℚ :=
  A.det⁻¹ • A.adjugate

/-- Modelled from the spec: the trend component of `hp_filter(source, λ)` of
the missing `DataTransformer` module — the solution `τ = (I + λ·DᵀD)⁻¹ y` of
the penalized least-squares problem minimizing
`Σ(y_t − τ_t)² + λ·Σ((τ_{t+1} − τ_t) − (τ_t − τ_{t−1}))²`, defined for the
full sample length. -/
def hpTrend (lam : ℚ) (y : List ℚ) : List ℚ :=
  List.ofFn (fun i : Fin y.length =>
    (qInv (hpA y.length lam)).mulVec (fun j => y.get j) i)

/-- Modelled from the spec: the cycle component of the HP filter, the
residual `original − trend` at every row. -/
def hpCycle (lam : ℚ) (y : List ℚ) : List ℚ :=
  List.zipWith (fun a b => a - b) y (hpTrend lam y)

/-- Modelled from the spec: `hp_filter(source, λ)` returns the trend and
cycle columns. -/
def hp_filter (lam : ℚ) (y : List ℚ) : List ℚ × List ℚ :=
  (hpTrend lam y, hpCycle lam y)

/-! ## Baxter–King filter -/

/-- One tap of the symmetric Baxter–King moving average of order `K`:
`Σ_{j=0..2K} w j · y_{t+j−K}` (only evaluated at interior `t`, where every
index is in range, so the `getD` default is never consulted). -/
def bkVal (w : ℕ → ℚ) (K : ℕ) (y : List ℚ) (t : ℕ) : ℚ :=
  ((List.range (2 * K + 1)).map (fun j => w j * y.getD (t + j - K) 0)).sum

/-- Modelled from the spec: the cycle column of
`bk_filter(source, low_freq, high_freq, K)` of the missing `DataTransformer`
module — a symmetric moving average of fixed order `K`, undefined (missing
marker) in the first and last `K` periods by construction.  The ideal
band-pass weights involve `sin` and `π`, hence the weight vector `w` is a
parameter. -/
def bkCycle (w : ℕ → ℚ) (K : ℕ) (y : List ℚ) : List (Option ℚ) :=
  List.ofFn (fun t : Fin y.length =>
    if K ≤ t.val ∧ t.val + K < y.length then some (bkVal w K y t.val) else none)

/-- Modelled from the spec: the trend column of the BK filter,
`original − cycle` on the retained interior rows, missing elsewhere. -/
def bkTrend (w : ℕ → ℚ) (K : ℕ) (y : List ℚ) : List (Option ℚ) :=
  List.ofFn (fun t : Fin y.length =>
    if K ≤ t.val ∧ t.val + K < y.length then some (y.get t - bkVal w K y t.val)
    else none)

/-- Modelled from the spec: `bk_filter` returns the trend and cycle columns. -/
def bk_filter (w : ℕ → ℚ) (K : ℕ) (y : List ℚ) :
    List (Option ℚ) × List (Option ℚ) :=
  (bkTrend w K y, bkCycle w K y)

/-- Length of the initial run of missing markers of a column. -/
def countLeadingNone {α : Type} (l : List (Option α)) : ℕ :=
  (l.takeWhile (fun o => o.isNone)).length

/-- Length of the final run of missing markers of a column. -/
def countTrailingNone {α : Type} (l : List (Option α)) : ℕ :=
  countLeadingNone l.reverse

/-! ## Linear detrending -/

/-- The series paired against its time index `0, 1, 2, …`. -/
def idxPairs (y : List ℚ) : List (ℚ × ℚ) :=
  (List.range y.length).map (fun (i : ℕ) => ((i : ℚ), y.getD i 0))

/-- Modelled from the spec: the trend component of `linear_detrend(source)`
of the missing `DataTransformer` module — the line fitted by ordinary least
squares of the source against a time index, evaluated over the full sample. -/
def linTrend (y : List ℚ) : List ℚ :=
  List.ofFn (fun t : Fin y.length =>
    olsAlpha (idxPairs y) + olsBeta (idxPairs y) * (t.val : ℚ))

/-- Modelled from the spec: the cycle component of `linear_detrend(source)`,
the residual `original − trend` at every row. -/
def linCycle (y : List ℚ) : List ℚ :=
  List.zipWith (fun a b => a - b) y (linTrend y)

/-- Modelled from the spec: `linear_detrend(source)` returns the trend and
cycle columns. -/
def linear_detrend (y : List ℚ) : List ℚ × List ℚ :=
  (linTrend y, linCycle y)

/-! ## Table-level transformations

Each transformation looks its source column up, fails with `MissingColumn`
when absent, and otherwise appends its derived column(s) at the end of the
table, leaving the index and the existing columns untouched. -/

/-- Modelled from the spec: `log_transform(source, dest)` of the missing
`DataTransformer` module: `dest = ln(source)` elementwise (missing entries
stay missing), failing with `DomainError` if any value of the source is
`≤ 0`. -/
noncomputable def log_transform (t : Table ℝ) (src dest : String) :
    Except GdpError (Table ℝ) :=
  match t.getCol src with
  | none => .error .missingColumn
  | some c =>
      if (c.filterMap id).any (fun x => decide (x ≤ 0)) then .error .domainError
      else .ok (t.addCol dest (c.map (Option.map Real.log)))

/-- The differenced column: `dest[t] = source[t] − source[t−p]` for `t ≥ p`,
and the first `p` rows are missing markers; a row is also missing when either
operand is missing. -/
def diffCol (p : ℕ) (c : List (Option ℚ)) : List (Option ℚ) :=
  List.ofFn (fun t : Fin c.length =>
    if t.val < p then none
    else
      match c.getD t.val none, c.getD (t.val - p) none with
      | some a, some b => some (a - b)
      | _, _ => none)

/-- Modelled from the spec: `difference(source, dest, periods)` of the
missing `DataTransformer` module, appending the differenced column. -/
def difference (t : Table ℚ) (src dest : String) (p : ℕ) :
    Except GdpError (Table ℚ) :=
  match t.getCol src with
  | none => .error .missingColumn
  | some c => .ok (t.addCol dest (diffCol p c))

/-- Modelled from the spec: the table-level HP filter, appending the
`<src>_hp_cycle` and `<src>_hp_trend` columns; the filter is only defined on
a fully observed source column (`DomainError` otherwise). -/
def hp_filter_table (t : Table ℚ) (src : String) (lam : ℚ) :
    Except GdpError (Table ℚ) :=
  match t.getCol src with
  | none => .error .missingColumn
  | some c =>
      if c.all (fun o => o.isSome) then
        .ok ((t.addCol (src ++ "_hp_cycle") ((hpCycle lam (c.filterMap id)).map some)).addCol
          (src ++ "_hp_trend") ((hpTrend lam (c.filterMap id)).map some))
      else .error .domainError

/-- Modelled from the spec: the table-level BK filter, appending the
`<src>_bk_cycle` and `<src>_bk_trend` columns (missing markers at the `K`
truncated periods stay in place); defined on a fully observed source. -/
def bk_filter_table (t : Table ℚ) (src : String) (w : ℕ → ℚ) (K : ℕ) :
    Except GdpError (Table ℚ) :=
  match t.getCol src with
  | none => .error .missingColumn
  | some c =>
      if c.all (fun o => o.isSome) then
        .ok ((t.addCol (src ++ "_bk_cycle") (bkCycle w K (c.filterMap id))).addCol
          (src ++ "_bk_trend") (bkTrend w K (c.filterMap id)))
      else .error .domainError

/-- Modelled from the spec: the table-level linear detrender, appending the
`<src>_lin_cycle` and `<src>_lin_trend` columns; defined on a fully observed
source. -/
def lin_detrend_table (t : Table ℚ) (src : String) :
    Except GdpError (Table ℚ) :=
  match t.getCol src with
  | none => .error .missingColumn
  | some c =>
      if c.all (fun o => o.isSome) then
        .ok ((t.addCol (src ++ "_lin_cycle") ((linCycle (c.filterMap id)).map some)).addCol
          (src ++ "_lin_trend") ((linTrend (c.filterMap id)).map some))
      else .error .domainError

/-! ## Supporting lemmas -/

lemma zipWith_add_sub (y tr : List ℚ) (h : tr.length = y.length) :
    List.zipWith (fun a b => a + b) tr (List.zipWith (fun a b => a - b) y tr) = y := by
  induction y generalizing tr with
  | nil => simp
  | cons a ys ih =>
      cases tr with
      | nil => simp at h
      | cons b trs =>
          simp only [List.zipWith_cons_cons]
          rw [ih trs (by simpa using h)]
          simp [add_sub_cancel]

lemma getD_ofFn {α : Type} {n : ℕ} (f : Fin n → α) (i : ℕ) (h : i < n) (d : α) :
    (List.ofFn f).getD i d = f ⟨i, h⟩ := by
  rw [List.getD_eq_getElem?_getD,
    List.getElem?_eq_getElem (by simpa using h), List.getElem_ofFn]
  rfl

lemma filterMap_id_length_of_all_isSome {α : Type} (c : List (Option α))
    (h : c.all (fun o => o.isSome) = true) : (c.filterMap id).length = c.length := by
  induction c with
  | nil => rfl
  | cons o l ih =>
      cases o with
      | none => simp at h
      | some x => simp only [List.all_cons] at h; simp [ih (by simpa using h)]

lemma map_some_getD (cs : List ℚ) (i : ℕ) (h : i < cs.length) :
    (cs.map (fun x => some x)).getD i none = some (cs.getD i 0) := by
  rw [List.getD_eq_getElem?_getD, List.getD_eq_getElem?_getD, List.getElem?_map,
    List.getElem?_eq_getElem h]
  simp

lemma getCol_append_of_ne {V : Type} (t : Table V)
    (L : List (String × List (Option V))) (nm : String)
    (h : ∀ q ∈ L, q.1 ≠ nm) :
    (Table.mk t.index (t.cols ++ L)).getCol nm = t.getCol nm := by
  unfold Table.getCol
  rw [List.find?_append]
  cases hf : t.cols.find? (fun c => decide (c.1 = nm)) with
  | some q => simp [Option.or]
  | none =>
      have : L.find? (fun c => decide (c.1 = nm)) = none := by
        rw [List.find?_eq_none]
        intro q hq
        simpa using h q hq
      simp [Option.or, this]

lemma getCol_addCol_self {V : Type} (t : Table V) (nm : String)
    (c : List (Option V)) (h : t.getCol nm = none) :
    (t.addCol nm c).getCol nm = some c := by
  unfold Table.getCol at h ⊢
  unfold Table.addCol
  rw [List.find?_append]
  have hn : t.cols.find? (fun q => decide (q.1 = nm)) = none := by
    cases hf : t.cols.find? (fun q => decide (q.1 = nm)) with
    | none => rfl
    | some q => rw [hf] at h; simp at h
  simp [hn, Option.or, List.find?]

lemma rss_eq_moments (ps : List (ℚ × ℚ)) (a b : ℚ) :
    rss ps a b = sYY ps - 2 * a * sY ps - 2 * b * sXY ps + 2 * a * b * sX ps
      + a ^ 2 * sN ps + b ^ 2 * sXX ps := by
  induction ps with
  | nil => simp [rss, sYY, sY, sXY, sX, sN, sXX]
  | cons p l ih =>
      simp only [rss, sYY, sY, sXY, sX, sN, sXX, List.map_cons, List.sum_cons,
        List.length_cons] at ih ⊢
      push_cast
      linear_combination ih

lemma sum_scaled_sq (ps : List (ℚ × ℚ)) (c d : ℚ) :
    (ps.map (fun p => (c * p.1 - d) ^ 2)).sum
      = c ^ 2 * sXX ps - 2 * c * d * sX ps + d ^ 2 * sN ps := by
  induction ps with
  | nil => simp [sXX, sX, sN]
  | cons p l ih =>
      simp only [sXX, sX, sN, List.map_cons, List.sum_cons, List.length_cons] at ih ⊢
      push_cast
      linear_combination ih

lemma rss_nonneg (ps : List (ℚ × ℚ)) (a b : ℚ) : 0 ≤ rss ps a b := by
  apply List.sum_nonneg
  intro x hx
  simp only [List.mem_map] at hx
  obtain ⟨p, _, rfl⟩ := hx
  positivity

lemma sN_pos (ps : List (ℚ × ℚ)) (h : 0 < ps.length) : 0 < sN ps := by
  unfold sN
  exact_mod_cast h

lemma mul_olsD_eq (ps : List (ℚ × ℚ)) :
    sN ps * olsD ps = (ps.map (fun p => (sN ps * p.1 - sX ps) ^ 2)).sum := by
  rw [sum_scaled_sq]
  unfold olsD
  ring

lemma olsD_nonneg (ps : List (ℚ × ℚ)) (h : 0 < ps.length) : 0 ≤ olsD ps := by
  have h1 : 0 ≤ sN ps * olsD ps := by
    rw [mul_olsD_eq]
    apply List.sum_nonneg
    intro x hx
    simp only [List.mem_map] at hx
    obtain ⟨p, _, rfl⟩ := hx
    positivity
  have h2 : 0 < sN ps := sN_pos ps h
  nlinarith

lemma ols_identity (ps : List (ℚ × ℚ)) (hn : sN ps ≠ 0) (hD : olsD ps ≠ 0)
    (a b : ℚ) :
    sN ps * rss ps a b
      = sN ps * rss ps (olsAlpha ps) (olsBeta ps)
        + olsD ps * (b - olsBeta ps) ^ 2
        + (sN ps * (a - olsAlpha ps) + (b - olsBeta ps) * sX ps) ^ 2 := by
  rw [rss_eq_moments, rss_eq_moments]
  simp only [olsAlpha, olsBeta, olsD] at hD ⊢
  field_simp
  ring

lemma ols_min (ps : List (ℚ × ℚ)) (h3 : 0 < ps.length) (hD : olsD ps ≠ 0)
    (a b : ℚ) : rss ps (olsAlpha ps) (olsBeta ps) ≤ rss ps a b := by
  have hNp : 0 < sN ps := sN_pos ps h3
  have hid := ols_identity ps (ne_of_gt hNp) hD a b
  have hDn : 0 ≤ olsD ps := olsD_nonneg ps h3
  nlinarith [sq_nonneg (b - olsBeta ps),
    sq_nonneg (sN ps * (a - olsAlpha ps) + (b - olsBeta ps) * sX ps)]

lemma countLeadingNone_eq_of {α : Type} (K : ℕ) (l : List (Option α))
    (h1 : ∀ i, i < K → l.getD i none = none)
    (h2 : l.getD K none ≠ none) :
    countLeadingNone l = K := by
  induction K generalizing l with
  | zero =>
      cases l with
      | nil => simp at h2
      | cons a t =>
          cases a with
          | none => simp at h2
          | some x => simp [countLeadingNone, List.takeWhile]
  | succ k ih =>
      cases l with
      | nil => simp at h2
      | cons a t =>
          have ha : a = none := by simpa using h1 0 (Nat.succ_pos k)
          subst ha
          rw [show countLeadingNone (none :: t) = countLeadingNone t + 1 from by
            simp [countLeadingNone, List.takeWhile]]
          rw [ih t (fun i hi => by simpa using h1 (i + 1) (Nat.succ_lt_succ hi))
            (by simpa using h2)]

lemma getD_reverse {α : Type} (l : List (Option α)) (i : ℕ) (h : i < l.length) :
    l.reverse.getD i none = l.getD (l.length - 1 - i) none := by
  rw [List.getD_eq_getElem?_getD, List.getD_eq_getElem?_getD,
    List.getElem?_eq_getElem (by simpa using h),
    List.getElem?_eq_getElem (show l.length - 1 - i < l.length by omega)]
  simp [List.getElem_reverse]

lemma sum_range_cast (n : ℕ) :
    ((List.range n).map (fun (i : ℕ) => (i : ℚ))).sum = n * (n - 1) / 2 := by
  induction n with
  | zero => simp
  | succ m ih =>
      rw [List.range_succ]
      simp only [List.map_append, List.sum_append, List.map_cons, List.map_nil,
        List.sum_cons, List.sum_nil, ih]
      push_cast
      ring

lemma sum_range_sq_cast (n : ℕ) :
    ((List.range n).map (fun (i : ℕ) => ((i : ℚ)) ^ 2)).sum
      = n * (n - 1) * (2 * n - 1) / 6 := by
  induction n with
  | zero => simp
  | succ m ih =>
      rw [List.range_succ]
      simp only [List.map_append, List.sum_append, List.map_cons, List.map_nil,
        List.sum_cons, List.sum_nil, ih]
      push_cast
      ring

lemma sN_idxPairs (y : List ℚ) : sN (idxPairs y) = (y.length : ℚ) := by
  simp [sN, idxPairs]

lemma sX_idxPairs (y : List ℚ) :
    sX (idxPairs y) = (y.length : ℚ) * (y.length - 1) / 2 := by
  rw [← sum_range_cast y.length]
  simp only [sX, idxPairs, List.map_map]
  exact congrArg List.sum (List.map_congr_left (fun i _ => rfl))

lemma sXX_idxPairs (y : List ℚ) :
    sXX (idxPairs y) = (y.length : ℚ) * (y.length - 1) * (2 * y.length - 1) / 6 := by
  rw [← sum_range_sq_cast y.length]
  simp only [sXX, idxPairs, List.map_map]
  exact congrArg List.sum (List.map_congr_left (fun i _ => rfl))

lemma olsD_idxPairs (y : List ℚ) :
    olsD (idxPairs y) = (y.length : ℚ) ^ 2 * ((y.length : ℚ) ^ 2 - 1) / 12 := by
  rw [olsD, sN_idxPairs, sX_idxPairs, sXX_idxPairs]
  ring

lemma olsD_idxPairs_pos (y : List ℚ) (h : 2 ≤ y.length) :
    0 < olsD (idxPairs y) := by
  rw [olsD_idxPairs]
  have hn : (2 : ℚ) ≤ (y.length : ℚ) := by exact_mod_cast h
  apply div_pos
  · have hp : (0 : ℚ) < (y.length : ℚ) ^ 2 := by nlinarith
    have hq : (0 : ℚ) < (y.length : ℚ) ^ 2 - 1 := by nlinarith
    exact mul_pos hp hq
  · norm_num

lemma pairs_self_snd_eq (c : List (Option ℚ)) : ∀ q ∈ pairs c c, q.2 = q.1 := by
  unfold pairs
  induction c with
  | nil => simp
  | cons o t ih =>
      cases o with
      | none => simpa using ih
      | some x =>
          intro q hq
          simp only [List.zip_cons_cons, List.filterMap_cons] at hq
          rcases List.mem_cons.mp hq with h | h
          · subst h; rfl
          · exact ih q h

lemma sY_eq_sX_of_diag (ps : List (ℚ × ℚ)) (h : ∀ q ∈ ps, q.2 = q.1) :
    sY ps = sX ps := by
  unfold sY sX
  rw [List.map_congr_left (fun q hq => h q hq)]

lemma sXY_eq_sXX_of_diag (ps : List (ℚ × ℚ)) (h : ∀ q ∈ ps, q.2 = q.1) :
    sXY ps = sXX ps := by
  unfold sXY sXX
  refine congrArg List.sum (List.map_congr_left ?_)
  intro q hq
  dsimp only
  rw [h q hq]
  ring

lemma sYY_eq_sXX_of_diag (ps : List (ℚ × ℚ)) (h : ∀ q ∈ ps, q.2 = q.1) :
    sYY ps = sXX ps := by
  unfold sYY sXX
  refine congrArg List.sum (List.map_congr_left ?_)
  intro q hq
  dsimp only
  rw [h q hq]

lemma popVar_nonneg (xs : List ℚ) : 0 ≤ popVar xs := by
  unfold popVar mean
  apply div_nonneg
  · apply List.sum_nonneg
    intro x hx
    simp only [List.mem_map] at hx
    obtain ⟨p, _, rfl⟩ := hx
    positivity
  · positivity

/-! ## Claims -/

/-- C1: for every input series, `hp_filter` produces a trend column and a
cycle column defined for the full sample length such that, at every row,
trend + cycle equals the original series exactly (the cycle is
original − trend). -/
theorem hp_filter_decomposition (lam : ℚ) (y : List ℚ) :
    (hp_filter lam y).1.length = y.length ∧
    (hp_filter lam y).2.length = y.length ∧
    (hp_filter lam y).2 = List.zipWith (fun a b => a - b) y (hp_filter lam y).1 ∧
    List.zipWith (fun a b => a + b) (hp_filter lam y).1 (hp_filter lam y).2 = y := by
  have hlt : (hpTrend lam y).length = y.length := by
    simp [hpTrend]
  refine ⟨hlt, ?_, rfl, ?_⟩
  · simp [hp_filter, hpCycle, hlt]
  · exact zipWith_add_sub y (hpTrend lam y) hlt

/-- C6: for every input series, `linear_detrend` fits ordinary least squares
of the series against a time index and produces a trend column (the fitted
line) and a cycle column (the residual) defined over the full sample, such
that at every row trend + cycle equals the original series exactly.  The
fitted line is the global minimizer of the residual sum of squares over the
indexed sample whenever the sample has at least two rows. -/
theorem linear_detrend_spec (y : List ℚ) :
    (linear_detrend y).1.length = y.length ∧
    (linear_detrend y).2.length = y.length ∧
    (linear_detrend y).1
      = List.ofFn (fun t : Fin y.length =>
          olsAlpha (idxPairs y) + olsBeta (idxPairs y) * (t.val : ℚ)) ∧
    (linear_detrend y).2 = List.zipWith (fun a b => a - b) y (linear_detrend y).1 ∧
    List.zipWith (fun a b => a + b) (linear_detrend y).1 (linear_detrend y).2 = y ∧
    (2 ≤ y.length → ∀ a b : ℚ,
      rss (idxPairs y) (olsAlpha (idxPairs y)) (olsBeta (idxPairs y))
        ≤ rss (idxPairs y) a b) := by
  have hlt : (linTrend y).length = y.length := by
    simp [linTrend]
  refine ⟨hlt, ?_, rfl, rfl, zipWith_add_sub y (linTrend y) hlt, ?_⟩
  · simp [linear_detrend, linCycle, hlt]
  · intro h2 a b
    have hlen : 0 < (idxPairs y).length := by
      simp only [idxPairs, List.length_map, List.length_range]
      omega
    exact ols_min (idxPairs y) hlen (ne_of_gt (olsD_idxPairs_pos y h2)) a b

/-- Witness for C6, at the series `[1, 2, 4]`. -/
theorem linear_detrend_spec_witness :
    List.zipWith (fun a b => a + b) (linear_detrend [1, 2, 4]).1
      (linear_detrend [1, 2, 4]).2 = [1, 2, 4] ∧
    rss (idxPairs [1, 2, 4]) (olsAlpha (idxPairs [1, 2, 4]))
      (olsBeta (idxPairs [1, 2, 4])) ≤ rss (idxPairs [1, 2, 4]) 0 0 :=
  ⟨(linear_detrend_spec [1, 2, 4]).2.2.2.2.1,
    (linear_detrend_spec [1, 2, 4]).2.2.2.2.2 (by decide) 0 0⟩

/-- C4: `standard_deviation(column)` returns the population standard
deviation `√(mean((x − mean x)²))` computed over only the non-missing values
of the column, and fails if the column has fewer than 2 non-missing
values. -/
theorem standard_deviation_spec (col : List (Option ℚ)) :
    ((vals col).length < 2 ↔ standard_deviation col = .error .insufficientData) ∧
    (∀ r : ℝ, standard_deviation col = .ok r →
      0 ≤ r ∧ r ^ 2 = (popVar (vals col) : ℝ) ∧
      popVar (vals col) = mean ((vals col).map (fun x => (x - mean (vals col)) ^ 2))) := by
  constructor
  · constructor
    · intro h
      simp [standard_deviation, if_pos h]
    · intro h
      by_contra h2
      simp [standard_deviation, if_neg h2] at h
  · intro r hr
    have hcond : ¬ ((vals col).length < 2) := by
      by_contra hc
      simp [standard_deviation, if_pos hc] at hr
    rw [standard_deviation, if_neg hcond] at hr
    injection hr with hr
    subst hr
    refine ⟨Real.sqrt_nonneg _, ?_, rfl⟩
    rw [Real.sq_sqrt]
    exact_mod_cast popVar_nonneg (vals col)

/-- Witness for C4, at the column `[some 0, some 2, none]`. -/
theorem standard_deviation_spec_witness :
    0 ≤ Real.sqrt ((popVar (vals [some 0, some 2, none]) : ℝ)) ∧
    (Real.sqrt ((popVar (vals [some 0, some 2, none]) : ℝ))) ^ 2
      = (popVar (vals [some 0, some 2, none]) : ℝ) := by
  have h := (standard_deviation_spec [some 0, some 2, none]).2
    (Real.sqrt ((popVar (vals [some 0, some 2, none]) : ℝ))) rfl
  exact ⟨h.1, h.2.1⟩

/-- C5: `coefficient_of_variation(column, reference_col)` returns
`σ(column)` divided by the mean of `reference_col` when it is given and by
the mean of `column` itself otherwise, and raises `DivideByZero` exactly
when the denominator mean is zero. -/
theorem coefficient_of_variation_spec (col : List (Option ℚ))
    (ref : Option (List (Option ℚ))) :
    (coefficient_of_variation col ref = .error .divideByZero
      ↔ mean (vals (ref.getD col)) = 0) ∧
    (mean (vals (ref.getD col)) ≠ 0 → 2 ≤ (vals col).length →
      coefficient_of_variation col ref
        = .ok (Real.sqrt ((popVar (vals col) : ℝ))
            / (mean (vals (ref.getD col)) : ℝ))) := by
  constructor
  · constructor
    · intro h
      by_contra hm
      rw [coefficient_of_variation, if_neg hm] at h
      cases hstd : standard_deviation col with
      | error e =>
          rw [hstd] at h
          have he : e = .insufficientData := by
            by_cases hc : (vals col).length < 2
            · rw [standard_deviation, if_pos hc] at hstd
              injection hstd with h3
              exact h3.symm
            · rw [standard_deviation, if_neg hc] at hstd
              exact absurd hstd (by simp)
          subst he
          simp at h
      | ok s =>
          rw [hstd] at h
          simp at h
    · intro h
      rw [coefficient_of_variation, if_pos h]
  · intro hm h2
    have hcond : ¬ ((vals col).length < 2) := by omega
    rw [coefficient_of_variation, if_neg hm, standard_deviation, if_neg hcond]

/-- Witness for C5: a zero-mean reference column raises `DivideByZero`, and
a nonzero-mean reference column yields `σ(column)/mean(reference)`. -/
theorem coefficient_of_variation_spec_witness :
    coefficient_of_variation [some 0, some 2] (some [some (-1), some 1])
      = .error .divideByZero ∧
    coefficient_of_variation [some 0, some 2] (some [some 2, some 2])
      = .ok (Real.sqrt ((popVar (vals [some 0, some 2]) : ℝ))
          / (mean (vals ((some [some 2, some 2] :
              Option (List (Option ℚ))).getD [some 0, some 2])) : ℝ)) := by
  constructor
  · exact (coefficient_of_variation_spec [some 0, some 2]
      (some [some (-1), some 1])).1.mpr (by norm_num [mean, vals, List.filterMap_cons])
  · exact (coefficient_of_variation_spec [some 0, some 2]
      (some [some 2, some 2])).2 (by norm_num [mean, vals, List.filterMap_cons])
      (by norm_num [vals, List.filterMap_cons])

/-- C3: `run_regression(table, dependent, independent)` fits ordinary least
squares `dependent = α + β·independent + ε` over exactly the paired rows
where neither value is missing (`pairs` drops rows with a missing value on
either side), returns the coefficient `β`, its standard error, the
t-statistic `β/SE`, a two-sided p-value and a confidence interval `β ± c·SE`
in the standard OLS form, and fails with `InsufficientData` if fewer than 3
valid paired observations remain.  The fitted pair `(α, β)` is the global
minimizer of the residual sum of squares over exactly the retained pairs;
the p-value and critical value are stated relative to the t-distribution
tail parameters `tsf` and `tc`, which are transcendental. -/
theorem run_regression_spec (t : Table ℚ) (dep ind : String)
    (dcol icol : List (Option ℚ))
    (hd : t.getCol dep = some dcol) (hi : t.getCol ind = some icol) :
    ((pairs icol dcol).length < 3 →
      run_regression t dep ind = .error .insufficientData) ∧
    (3 ≤ (pairs icol dcol).length → olsD (pairs icol dcol) ≠ 0 →
      ∃ r : RegResult,
        run_regression t dep ind = .ok r ∧
        r.nobs = (pairs icol dcol).length ∧
        r.beta = olsBeta (pairs icol dcol) ∧
        r.alpha = olsAlpha (pairs icol dcol) ∧
        (∀ a b : ℚ,
          rss (pairs icol dcol) r.alpha r.beta ≤ rss (pairs icol dcol) a b) ∧
        r.seSq = rss (pairs icol dcol) r.alpha r.beta
          / (((r.nobs : ℚ) - 2) * cSxx (pairs icol dcol)) ∧
        0 ≤ r.seSq ∧
        0 ≤ r.se ∧
        r.se ^ 2 = (r.seSq : ℝ) ∧
        r.tstat = (r.beta : ℝ) / r.se ∧
        (∀ tsf : ℕ → ℝ → ℝ, r.seSq ≠ 0 →
          r.pvalue tsf = 2 * tsf (r.nobs - 2) |r.tstat|) ∧
        (∀ tsf : ℕ → ℝ → ℝ, r.seSq = 0 → r.pvalue tsf = 0) ∧
        (∀ tc : ℝ,
          r.confint tc = ((r.beta : ℝ) - tc * r.se, (r.beta : ℝ) + tc * r.se))) := by
  constructor
  · intro h
    simp only [run_regression, hd, hi]
    rw [if_pos h]
  · intro h3 hD
    have hn0 : 0 < (pairs icol dcol).length := by omega
    have hrun : run_regression t dep ind
        = .ok ⟨(pairs icol dcol).length, olsBeta (pairs icol dcol),
            olsAlpha (pairs icol dcol),
            rss (pairs icol dcol) (olsAlpha (pairs icol dcol)) (olsBeta (pairs icol dcol))
              / ((((pairs icol dcol).length : ℚ) - 2) * cSxx (pairs icol dcol))⟩ := by
      simp only [run_regression, hd, hi]
      rw [if_neg (by omega)]
    have hseSq : 0 ≤ rss (pairs icol dcol) (olsAlpha (pairs icol dcol))
        (olsBeta (pairs icol dcol))
        / ((((pairs icol dcol).length : ℚ) - 2) * cSxx (pairs icol dcol)) := by
      apply div_nonneg (rss_nonneg _ _ _)
      apply mul_nonneg
      · have h3q : (3 : ℚ) ≤ ((pairs icol dcol).length : ℚ) := by exact_mod_cast h3
        linarith
      · exact div_nonneg (olsD_nonneg _ hn0) (le_of_lt (sN_pos _ hn0))
    refine ⟨_, hrun, rfl, rfl, rfl, ols_min _ hn0 hD, rfl, hseSq, Real.sqrt_nonneg _,
      ?_, rfl, ?_, ?_, fun tc => rfl⟩
    · exact Real.sq_sqrt (by exact_mod_cast hseSq)
    · intro tsf hne
      rw [RegResult.pvalue, if_neg hne]
    · intro tsf hz
      rw [RegResult.pvalue, if_pos hz]

/-- The dependent column of the concrete regression witness. -/
def ycol3 : List (Option ℚ) := [some 1, some 2, some 4]

/-- The independent column of the concrete regression witness. -/
def xcol3 : List (Option ℚ) := [some 1, some 2, some 3]

/-- The concrete regression witness table. -/
def tblC3 : Table ℚ := ⟨[0, 1, 2], [("y", ycol3), ("x", xcol3)]⟩

/-- Witness for C3, at a three-row table. -/
theorem run_regression_spec_witness :
    ∃ r : RegResult,
      run_regression tblC3 "y" "x" = .ok r ∧
      r.beta = olsBeta (pairs xcol3 ycol3) ∧
      (∀ a b : ℚ, rss (pairs xcol3 ycol3) r.alpha r.beta
        ≤ rss (pairs xcol3 ycol3) a b) := by
  obtain ⟨r, hr, _, hb, _, hmin, _⟩ :=
    (run_regression_spec tblC3 "y" "x" ycol3 xcol3 rfl rfl).2
      (by decide)
      (by norm_num [olsD, sN, sX, sXX, pairs, xcol3, ycol3, List.filterMap_cons])
  exact ⟨r, hr, hb, hmin⟩

/-- C9 (amended): `run_regression` applied to two identical columns with at
least 3 paired non-missing observations and non-constant values returns the
coefficient exactly 1, a zero squared standard error (hence zero standard
error), and a p-value of zero, without failing. -/
theorem run_regression_identical_spec (t : Table ℚ) (dep ind : String)
    (c : List (Option ℚ))
    (hd : t.getCol dep = some c) (hi : t.getCol ind = some c)
    (h3 : 3 ≤ (pairs c c).length) (hD : olsD (pairs c c) ≠ 0) :
    ∃ r : RegResult,
      run_regression t dep ind = .ok r ∧
      r.beta = 1 ∧ r.seSq = 0 ∧ r.se = 0 ∧
      (∀ tsf : ℕ → ℝ → ℝ, r.pvalue tsf = 0) := by
  have hdiag := pairs_self_snd_eq c
  have hb : olsBeta (pairs c c) = 1 := by
    unfold olsBeta
    rw [sXY_eq_sXX_of_diag _ hdiag, sY_eq_sX_of_diag _ hdiag,
      show sN (pairs c c) * sXX (pairs c c) - sX (pairs c c) * sX (pairs c c)
        = olsD (pairs c c) from by unfold olsD; ring]
    exact div_self hD
  have ha : olsAlpha (pairs c c) = 0 := by
    unfold olsAlpha
    rw [hb, sY_eq_sX_of_diag _ hdiag]
    simp
  have hrss : rss (pairs c c) (olsAlpha (pairs c c)) (olsBeta (pairs c c)) = 0 := by
    rw [rss_eq_moments, ha, hb, sYY_eq_sXX_of_diag _ hdiag,
      sXY_eq_sXX_of_diag _ hdiag]
    ring
  have hval : rss (pairs c c) (olsAlpha (pairs c c)) (olsBeta (pairs c c))
      / ((((pairs c c).length : ℚ) - 2) * cSxx (pairs c c)) = 0 := by
    rw [hrss, zero_div]
  have hrun : run_regression t dep ind
      = .ok ⟨(pairs c c).length, olsBeta (pairs c c), olsAlpha (pairs c c),
          rss (pairs c c) (olsAlpha (pairs c c)) (olsBeta (pairs c c))
            / ((((pairs c c).length : ℚ) - 2) * cSxx (pairs c c))⟩ := by
    simp only [run_regression, hd, hi]
    rw [if_neg (by omega)]
  refine ⟨_, hrun, hb, hval, ?_, ?_⟩
  · show Real.sqrt _ = 0
    rw [show ((⟨(pairs c c).length, olsBeta (pairs c c), olsAlpha (pairs c c),
        rss (pairs c c) (olsAlpha (pairs c c)) (olsBeta (pairs c c))
          / ((((pairs c c).length : ℚ) - 2) * cSxx (pairs c c))⟩ :
        RegResult)).seSq = (0 : ℚ) from hval]
    simp
  · intro tsf
    rw [RegResult.pvalue, if_pos hval]

/-- The identical non-constant column of the C9 witness. -/
def idCol : List (Option ℚ) := [some 1, some 2, some 3]

/-- The C9 witness table: two identical non-constant columns. -/
def tblId : Table ℚ := ⟨[0, 1, 2], [("a", idCol), ("b", idCol)]⟩

/-- Witness for the amended C9, at two identical columns `[1, 2, 3]`. -/
theorem run_regression_identical_witness :
    ∃ r : RegResult,
      run_regression tblId "a" "b" = .ok r ∧
      r.beta = 1 ∧ r.seSq = 0 ∧ r.se = 0 ∧
      (∀ tsf : ℕ → ℝ → ℝ, r.pvalue tsf = 0) :=
  run_regression_identical_spec tblId "a" "b" idCol rfl rfl (by decide)
    (by norm_num [olsD, sN, sX, sXX, pairs, idCol, List.filterMap_cons])

/-- The constant column of the C9 counterexample. -/
def constCol : List (Option ℚ) := [some 5, some 5, some 5]

/-- The C9 counterexample table: two identical constant columns. -/
def tblConst : Table ℚ := ⟨[0, 1, 2], [("a", constCol), ("b", constCol)]⟩

/-- C9 counterexample: on two identical constant columns (three rows of the
value 5) the regression does not return a coefficient near 1 — the modelled
OLS coefficient is the indeterminate-form value 0, not approximately 1, so
the claim fails as universally stated over all pairs of identical columns. -/
theorem run_regression_constant_counterexample :
    run_regression tblConst "a" "b" = .ok ⟨3, 0, 5, 0⟩ ∧
    (RegResult.beta ⟨3, 0, 5, 0⟩ ≠ 1) := by
  constructor
  · have hps : pairs constCol constCol = [(5, 5), (5, 5), (5, 5)] := rfl
    have h0 : run_regression tblConst "a" "b"
        = .ok ⟨(pairs constCol constCol).length, olsBeta (pairs constCol constCol),
            olsAlpha (pairs constCol constCol),
            rss (pairs constCol constCol) (olsAlpha (pairs constCol constCol))
              (olsBeta (pairs constCol constCol))
              / ((((pairs constCol constCol).length : ℚ) - 2)
                * cSxx (pairs constCol constCol))⟩ := rfl
    rw [h0, hps]
    norm_num [olsBeta, olsAlpha, olsD, cSxx, sN, sX, sY, sXX, sXY, rss,
      RegResult.mk.injEq]
  · intro h
    exact absurd h (by norm_num [RegResult.beta])

lemma bkCycle_getD (w : ℕ → ℚ) (K : ℕ) (y : List ℚ) (i : ℕ) (hi : i < y.length) :
    (bkCycle w K y).getD i none
      = if K ≤ i ∧ i + K < y.length then some (bkVal w K y i) else none := by
  rw [bkCycle, getD_ofFn _ i hi]

lemma bkTrend_getD (w : ℕ → ℚ) (K : ℕ) (y : List ℚ) (i : ℕ) (hi : i < y.length) :
    (bkTrend w K y).getD i none
      = if K ≤ i ∧ i + K < y.length then some (y.get ⟨i, hi⟩ - bkVal w K y i)
        else none := by
  rw [bkTrend, getD_ofFn _ i hi]

lemma getD_eq_get (y : List ℚ) (i : ℕ) (hi : i < y.length) :
    y.getD i 0 = y.get ⟨i, hi⟩ := by
  rw [List.getD_eq_getElem?_getD, List.getElem?_eq_getElem hi]
  rfl

/-- C2 (amended): for every input series of length at least `2K + 1`, the
cycle column produced by `bk_filter` of order `K` has exactly `K` missing
values at the start and exactly `K` missing values at the end, and the
trend + cycle decomposition of the original series holds exactly on the
retained interior rows, both components being missing outside them. -/
theorem bk_filter_edge_spec (w : ℕ → ℚ) (K : ℕ) (y : List ℚ)
    (h : 2 * K + 1 ≤ y.length) :
    (bk_filter w K y).2.length = y.length ∧
    (bk_filter w K y).1.length = y.length ∧
    countLeadingNone (bk_filter w K y).2 = K ∧
    countTrailingNone (bk_filter w K y).2 = K ∧
    (∀ i, i < y.length →
      ((K ≤ i ∧ i + K < y.length) →
        ∃ a b, (bk_filter w K y).2.getD i none = some a ∧
          (bk_filter w K y).1.getD i none = some b ∧
          b + a = y.getD i 0) ∧
      (¬ (K ≤ i ∧ i + K < y.length) →
        (bk_filter w K y).2.getD i none = none ∧
        (bk_filter w K y).1.getD i none = none)) := by
  simp only [bk_filter]
  have hlen : (bkCycle w K y).length = y.length := by simp [bkCycle]
  refine ⟨hlen, by simp [bkTrend], ?_, ?_, ?_⟩
  · apply countLeadingNone_eq_of
    · intro i hiK
      rw [bkCycle_getD w K y i (by omega), if_neg (by omega)]
    · rw [bkCycle_getD w K y K (by omega), if_pos (by omega)]
      simp
  · apply countLeadingNone_eq_of
    · intro i hiK
      rw [getD_reverse _ i (by omega),
        bkCycle_getD w K y ((bkCycle w K y).length - 1 - i) (by omega),
        if_neg (by omega)]
    · rw [getD_reverse _ K (by omega),
        bkCycle_getD w K y ((bkCycle w K y).length - 1 - K) (by omega),
        if_pos (by omega)]
      simp
  · intro i hi
    constructor
    · intro hint
      refine ⟨bkVal w K y i, y.get ⟨i, hi⟩ - bkVal w K y i, ?_, ?_, ?_⟩
      · rw [bkCycle_getD w K y i hi, if_pos hint]
      · rw [bkTrend_getD w K y i hi, if_pos hint]
      · rw [getD_eq_get y i hi]
        ring
    · intro hint
      constructor
      · rw [bkCycle_getD w K y i hi, if_neg hint]
      · rw [bkTrend_getD w K y i hi, if_neg hint]

/-- C2 counterexample: on the one-element series `[1]` the BK cycle column
is the single missing entry, so it does not have twelve missing values at
the start — the claim fails as stated for arbitrarily short input series. -/
theorem bk_filter_short_counterexample :
    countLeadingNone (bk_filter (fun _ => 0) 12 [1]).2 = 1 ∧ (1 : ℕ) ≠ 12 := by
  constructor
  · rfl
  · decide

/-- Witness for the amended C2, at a 25-row series with `K = 12`. -/
theorem bk_filter_edge_spec_witness :
    countLeadingNone (bk_filter (fun _ => 0) 12 (List.replicate 25 0)).2 = 12 ∧
    countTrailingNone (bk_filter (fun _ => 0) 12 (List.replicate 25 0)).2 = 12 :=
  ⟨(bk_filter_edge_spec (fun j => 0) 12 (List.replicate 25 0) (by simp)).2.2.1,
    (bk_filter_edge_spec (fun j => 0) 12 (List.replicate 25 0) (by simp)).2.2.2.1⟩

lemma getCol_addCol_of_ne {V : Type} (t : Table V) (n2 nm : String)
    (l : List (Option V)) (h : n2 ≠ nm) :
    (t.addCol n2 l).getCol nm = t.getCol nm := by
  apply getCol_append_of_ne
  intro q hq
  simp only [List.mem_singleton] at hq
  rw [hq]
  exact h

lemma log_transform_ok (t : Table ℝ) (src dest : String)
    (c : List (Option ℝ)) (h : t.getCol src = some c)
    (hall : ∀ x ∈ c.filterMap id, 0 < x) :
    log_transform t src dest = .ok (t.addCol dest (c.map (Option.map Real.log))) := by
  have hneg : ¬ ((c.filterMap id).any (fun x => decide (x ≤ 0)) = true) := by
    rw [List.any_eq_true]
    push_neg
    intro x hx
    simpa using not_le.mpr (hall x hx)
  simp only [log_transform, h]
  rw [if_neg hneg]

/-- C7: `log_transform(source, dest)` sets `dest` to the elementwise natural
logarithm of the source column (missing entries staying missing), and fails
with `DomainError` if any value of the source is `≤ 0`. -/
theorem log_transform_spec (t : Table ℝ) (src dest : String)
    (c : List (Option ℝ)) (h : t.getCol src = some c) :
    ((∃ x ∈ c.filterMap id, x ≤ 0) →
      log_transform t src dest = .error .domainError) ∧
    ((∀ x ∈ c.filterMap id, 0 < x) →
      log_transform t src dest = .ok (t.addCol dest (c.map (Option.map Real.log))) ∧
      (t.getCol dest = none →
        (t.addCol dest (c.map (Option.map Real.log))).getCol dest
          = some (c.map (Option.map Real.log))) ∧
      (c.map (Option.map Real.log)).length = c.length) := by
  constructor
  · intro hex
    simp only [log_transform, h]
    rw [if_pos ?cond]
    case cond =>
      rw [List.any_eq_true]
      obtain ⟨x, hx, hle⟩ := hex
      exact ⟨x, hx, by simpa using hle⟩
  · intro hall
    exact ⟨log_transform_ok t src dest c h hall,
      fun hfresh => getCol_addCol_self t dest _ hfresh, by simp⟩

/-- The concrete positive-column table of the C7 witness. -/
def tR1 : Table ℝ := ⟨[0], [("g", [some 1])]⟩

/-- The concrete nonpositive-column table of the C7 witness. -/
def tR2 : Table ℝ := ⟨[0], [("g", [some (-1)])]⟩

/-- Witness for C7: a positive column is mapped to its logarithms and a
column containing a nonpositive value raises `DomainError`. -/
theorem log_transform_spec_witness :
    log_transform tR1 "g" "g_log"
      = .ok (tR1.addCol "g_log" ([some (1 : ℝ)].map (Option.map Real.log))) ∧
    log_transform tR2 "g" "g_log" = .error .domainError := by
  constructor
  · refine ((log_transform_spec tR1 "g" "g_log" [some 1] rfl).2 ?_).1
    intro x hx
    simp only [List.filterMap_cons, List.filterMap_nil, id_eq,
      List.mem_singleton] at hx
    rw [hx]
    norm_num
  · refine (log_transform_spec tR2 "g" "g_log" [some (-1)] rfl).1 ?_
    refine ⟨-1, ?_, by norm_num⟩
    simp [List.filterMap_cons]

lemma diffCol_getD (p : ℕ) (c : List (Option ℚ)) (i : ℕ) (hi : i < c.length) :
    (diffCol p c).getD i none
      = if i < p then none
        else
          match c.getD i none, c.getD (i - p) none with
          | some a, some b => some (a - b)
          | _, _ => none := by
  rw [diffCol, getD_ofFn _ i hi]

/-- C8: `difference(source, dest, periods)` sets
`dest[t] = source[t] − source[t−periods]` for every row `t ≥ periods`, and
the first `periods` rows of `dest` are the missing marker rather than an
error. -/
theorem difference_spec (t : Table ℚ) (src dest : String) (p : ℕ)
    (cs : List ℚ) (h : t.getCol src = some (cs.map (fun x => some x))) :
    difference t src dest p
      = .ok (t.addCol dest (diffCol p (cs.map (fun x => some x)))) ∧
    (diffCol p (cs.map (fun x => some x))).length = cs.length ∧
    (∀ i, i < cs.length →
      (i < p → (diffCol p (cs.map (fun x => some x))).getD i none = none) ∧
      (p ≤ i → (diffCol p (cs.map (fun x => some x))).getD i none
        = some (cs.getD i 0 - cs.getD (i - p) 0))) := by
  refine ⟨by simp only [difference, h], by simp [diffCol], ?_⟩
  intro i hi
  have hi' : i < (cs.map (fun x => some x)).length := by simpa using hi
  constructor
  · intro hip
    rw [diffCol_getD p _ i hi', if_pos hip]
  · intro hpi
    rw [diffCol_getD p _ i hi', if_neg (by omega),
      map_some_getD cs i hi, map_some_getD cs (i - p) (by omega)]

/-- The concrete table of the C8 witness. -/
def tQ1 : Table ℚ := ⟨[0, 1], [("s", [some 3, some 5])]⟩

/-- Witness for C8, at the two-row column `[3, 5]` with one period. -/
theorem difference_spec_witness :
    difference tQ1 "s" "d" 1
      = .ok (tQ1.addCol "d" (diffCol 1 ([3, 5].map (fun x => some x)))) ∧
    (diffCol 1 (([3, 5] : List ℚ).map (fun x => some x))).getD 0 none = none ∧
    (diffCol 1 (([3, 5] : List ℚ).map (fun x => some x))).getD 1 none
      = some ((([3, 5] : List ℚ).getD 1 0) - (([3, 5] : List ℚ).getD 0 0)) := by
  have h := difference_spec tQ1 "s" "d" 1 [3, 5] rfl
  exact ⟨h.1, (h.2.2 0 (by norm_num)).1 (by norm_num),
    (h.2.2 1 (by norm_num)).2 (by norm_num)⟩

/-- C10: every transformation (log, difference, HP filter, BK filter, linear
detrend) appends its derived column(s) at the end of the table without
changing the time index (hence the number of rows) or any previously
existing column; the derived columns all have the source column's length,
with undefined entries (difference warm-up rows, BK edge truncation)
represented in place as missing markers rather than by dropping rows. -/
theorem transforms_append_spec :
    (∀ (t : Table ℝ) (src dest : String) (c : List (Option ℝ)),
      t.getCol src = some c → (∀ x ∈ c.filterMap id, 0 < x) →
      ∃ t' : Table ℝ,
        log_transform t src dest = .ok t' ∧
        t'.index = t.index ∧
        t'.cols = t.cols ++ [(dest, c.map (Option.map Real.log))] ∧
        (c.map (Option.map Real.log)).length = c.length ∧
        (∀ nm, nm ≠ dest → t'.getCol nm = t.getCol nm)) ∧
    (∀ (t : Table ℚ) (src dest : String) (p : ℕ) (c : List (Option ℚ)),
      t.getCol src = some c →
      ∃ t' : Table ℚ,
        difference t src dest p = .ok t' ∧
        t'.index = t.index ∧
        t'.cols = t.cols ++ [(dest, diffCol p c)] ∧
        (diffCol p c).length = c.length ∧
        (∀ nm, nm ≠ dest → t'.getCol nm = t.getCol nm)) ∧
    (∀ (t : Table ℚ) (src : String) (lam : ℚ) (c : List (Option ℚ)),
      t.getCol src = some c → c.all (fun o => o.isSome) = true →
      ∃ (t' : Table ℚ) (cyc trn : List (Option ℚ)),
        hp_filter_table t src lam = .ok t' ∧
        t'.index = t.index ∧
        t'.cols = t.cols ++ [(src ++ "_hp_cycle", cyc), (src ++ "_hp_trend", trn)] ∧
        cyc.length = c.length ∧ trn.length = c.length ∧
        (∀ nm, nm ≠ src ++ "_hp_cycle" → nm ≠ src ++ "_hp_trend" →
          t'.getCol nm = t.getCol nm)) ∧
    (∀ (t : Table ℚ) (src : String) (w : ℕ → ℚ) (K : ℕ) (c : List (Option ℚ)),
      t.getCol src = some c → c.all (fun o => o.isSome) = true →
      ∃ (t' : Table ℚ) (cyc trn : List (Option ℚ)),
        bk_filter_table t src w K = .ok t' ∧
        t'.index = t.index ∧
        t'.cols = t.cols ++ [(src ++ "_bk_cycle", cyc), (src ++ "_bk_trend", trn)] ∧
        cyc.length = c.length ∧ trn.length = c.length ∧
        (∀ nm, nm ≠ src ++ "_bk_cycle" → nm ≠ src ++ "_bk_trend" →
          t'.getCol nm = t.getCol nm)) ∧
    (∀ (t : Table ℚ) (src : String) (c : List (Option ℚ)),
      t.getCol src = some c → c.all (fun o => o.isSome) = true →
      ∃ (t' : Table ℚ) (cyc trn : List (Option ℚ)),
        lin_detrend_table t src = .ok t' ∧
        t'.index = t.index ∧
        t'.cols = t.cols ++ [(src ++ "_lin_cycle", cyc), (src ++ "_lin_trend", trn)] ∧
        cyc.length = c.length ∧ trn.length = c.length ∧
        (∀ nm, nm ≠ src ++ "_lin_cycle" → nm ≠ src ++ "_lin_trend" →
          t'.getCol nm = t.getCol nm)) := by
  refine ⟨?_, ?_, ?_, ?_, ?_⟩
  · intro t src dest c h hall
    refine ⟨t.addCol dest (c.map (Option.map Real.log)),
      log_transform_ok t src dest c h hall, rfl, rfl, by simp, ?_⟩
    intro nm hnm
    exact getCol_addCol_of_ne t dest nm _ (Ne.symm hnm)
  · intro t src dest p c h
    refine ⟨t.addCol dest (diffCol p c), by simp only [difference, h], rfl, rfl,
      by simp [diffCol], ?_⟩
    intro nm hnm
    exact getCol_addCol_of_ne t dest nm _ (Ne.symm hnm)
  · intro t src lam c h hall
    have hys : ((c.filterMap id).length) = c.length :=
      filterMap_id_length_of_all_isSome c hall
    refine ⟨(t.addCol (src ++ "_hp_cycle") ((hpCycle lam (c.filterMap id)).map some)).addCol
        (src ++ "_hp_trend") ((hpTrend lam (c.filterMap id)).map some),
      (hpCycle lam (c.filterMap id)).map some,
      (hpTrend lam (c.filterMap id)).map some, ?_, rfl, ?_, ?_, ?_, ?_⟩
    · simp only [hp_filter_table, h]
      rw [if_pos hall]
    · simp [Table.addCol]
    · rw [List.length_map]
      simp [hpCycle, hpTrend, hys]
    · rw [List.length_map]
      simp [hpTrend, hys]
    · intro nm h1 h2
      rw [getCol_addCol_of_ne _ _ _ _ (Ne.symm h2), getCol_addCol_of_ne _ _ _ _ (Ne.symm h1)]
  · intro t src w K c h hall
    have hys : ((c.filterMap id).length) = c.length :=
      filterMap_id_length_of_all_isSome c hall
    refine ⟨(t.addCol (src ++ "_bk_cycle") (bkCycle w K (c.filterMap id))).addCol
        (src ++ "_bk_trend") (bkTrend w K (c.filterMap id)),
      bkCycle w K (c.filterMap id), bkTrend w K (c.filterMap id),
      ?_, rfl, ?_, ?_, ?_, ?_⟩
    · simp only [bk_filter_table, h]
      rw [if_pos hall]
    · simp [Table.addCol]
    · simp [bkCycle, hys]
    · simp [bkTrend, hys]
    · intro nm h1 h2
      rw [getCol_addCol_of_ne _ _ _ _ (Ne.symm h2), getCol_addCol_of_ne _ _ _ _ (Ne.symm h1)]
  · intro t src c h hall
    have hys : ((c.filterMap id).length) = c.length :=
      filterMap_id_length_of_all_isSome c hall
    refine ⟨(t.addCol (src ++ "_lin_cycle") ((linCycle (c.filterMap id)).map some)).addCol
        (src ++ "_lin_trend") ((linTrend (c.filterMap id)).map some),
      (linCycle (c.filterMap id)).map some,
      (linTrend (c.filterMap id)).map some, ?_, rfl, ?_, ?_, ?_, ?_⟩
    · simp only [lin_detrend_table, h]
      rw [if_pos hall]
    · simp [Table.addCol]
    · rw [List.length_map]
      simp [linCycle, linTrend, hys]
    · rw [List.length_map]
      simp [linTrend, hys]
    · intro nm h1 h2
      rw [getCol_addCol_of_ne _ _ _ _ (Ne.symm h2), getCol_addCol_of_ne _ _ _ _ (Ne.symm h1)]

/-- Witness for C10: every transformation applied to a concrete table
succeeds and keeps the time index. -/
theorem transforms_append_spec_witness :
    (∃ t' : Table ℝ, log_transform tR1 "g" "g_log2" = .ok t' ∧ t'.index = tR1.index) ∧
    (∃ t' : Table ℚ, difference tQ1 "s" "s_diff" 1 = .ok t' ∧ t'.index = tQ1.index) ∧
    (∃ t' : Table ℚ, hp_filter_table tQ1 "s" 1600 = .ok t' ∧ t'.index = tQ1.index) ∧
    (∃ t' : Table ℚ, bk_filter_table tQ1 "s" (fun _ => 0) 12 = .ok t' ∧
      t'.index = tQ1.index) ∧
    (∃ t' : Table ℚ, lin_detrend_table tQ1 "s" = .ok t' ∧ t'.index = tQ1.index) := by
  obtain ⟨p1, p2, p3, p4, p5⟩ := transforms_append_spec
  refine ⟨?_, ?_, ?_, ?_, ?_⟩
  · have hpos : ∀ x ∈ ([some (1 : ℝ)] : List (Option ℝ)).filterMap id, 0 < x := by
      intro x hx
      simp only [List.filterMap_cons, List.filterMap_nil, id_eq,
        List.mem_singleton] at hx
      rw [hx]
      norm_num
    obtain ⟨t', hok, hidx, _⟩ := p1 tR1 "g" "g_log2" [some 1] rfl hpos
    exact ⟨t', hok, hidx⟩
  · obtain ⟨t', hok, hidx, _⟩ := p2 tQ1 "s" "s_diff" 1 [some 3, some 5] rfl
    exact ⟨t', hok, hidx⟩
  · obtain ⟨t', cyc, trn, hok, hidx, _⟩ := p3 tQ1 "s" 1600 [some 3, some 5] rfl rfl
    exact ⟨t', hok, hidx⟩
  · obtain ⟨t', cyc, trn, hok, hidx, _⟩ :=
      p4 tQ1 "s" (fun _ => 0) 12 [some 3, some 5] rfl rfl
    exact ⟨t', hok, hidx⟩
  · obtain ⟨t', cyc, trn, hok, hidx, _⟩ := p5 tQ1 "s" [some 3, some 5] rfl rfl
    exact ⟨t', hok, hidx⟩

end GdpVol
